import Mathlib

/-!
Verification development for the LaueTools grain-graph and harmonic-filter
modules (`graingraph.py`, `CrystalParameters.py`).

The vector arithmetic is embedded exactly over ℤ: the source computes the
angle between two integer Miller-index vectors with `arccos` in floating
point and rounds it to 9 decimals; in exact real arithmetic that rounded
angle is 0 precisely when the two vectors are nonzero and positively
parallel (same direction), i.e. their cross product vanishes and their dot
product is positive, and it is 180 precisely when the cross product
vanishes and the dot product is negative.  We use these exact
characterisations for the "rounded angle = 0" and "angle = 180" tests.
-/

namespace LaueTools

/-- An integer 3-vector of Miller indices (h, k, l). -/
abbrev Vec3 := ℤ × ℤ × ℤ

/-- The zero vector. -/
def v0 : Vec3 := (0, 0, 0)

/-- Euclidean dot product (identity metric, as used by
`FilterHarmonics_2` via `AngleBetweenNormals(hkl, hkl, np.eye(3))`). -/
def dot (a b : Vec3) : ℤ :=
  a.1 * b.1 + a.2.1 * b.2.1 + a.2.2 * b.2.2

/-- Cross product of two integer 3-vectors. -/
def cross (a b : Vec3) : Vec3 :=
  (a.2.1 * b.2.2 - a.2.2 * b.2.1,
   a.2.2 * b.1 - a.1 * b.2.2,
   a.1 * b.2.1 - a.2.1 * b.1)

/-- Exact semantics of "rounded pairwise angle equals 0" for integer
vectors: the two vectors point in the same direction (cross product zero,
dot product positive).  This is the relation `angle_pairs == 0` used by
`FilterHarmonics_2`. -/
def sameDir (a b : Vec3) : Prop :=
  cross a b = v0 ∧ 0 < dot a b

instance (a b : Vec3) : Decidable (sameDir a b) := by
  unfold sameDir; infer_instance

/-- Exact semantics of "pairwise angle equals 180": antiparallel vectors
(cross product zero, dot product negative). -/
def antiparallel (a b : Vec3) : Prop :=
  cross a b = v0 ∧ dot a b < 0

instance (a b : Vec3) : Decidable (antiparallel a b) := by
  unfold antiparallel; infer_instance

theorem sameDir_symm {a b : Vec3} (h : sameDir a b) : sameDir b a := by
  obtain ⟨a1, a2, a3⟩ := a
  obtain ⟨b1, b2, b3⟩ := b
  obtain ⟨hc, hd⟩ := h
  simp only [sameDir, cross, dot, v0, Prod.mk.injEq] at *
  refine ⟨⟨?_, ?_, ?_⟩, ?_⟩ <;> [linarith [hc.1]; linarith [hc.2.1]; linarith [hc.2.2]; linarith]

theorem sameDir_right_ne_zero {a b : Vec3} (h : sameDir a b) : b ≠ v0 := by
  rintro rfl
  obtain ⟨a1, a2, a3⟩ := a
  obtain ⟨-, hd⟩ := h
  simp [dot, v0] at hd

/-- Positive parallelism of integer vectors is transitive. -/
theorem sameDir_trans {a b c : Vec3} (hab : sameDir a b) (hbc : sameDir b c) :
    sameDir a c := by
  obtain ⟨a1, a2, a3⟩ := a
  obtain ⟨b1, b2, b3⟩ := b
  obtain ⟨c1, c2, c3⟩ := c
  obtain ⟨hcab, hdab⟩ := hab
  obtain ⟨hcbc, hdbc⟩ := hbc
  simp only [cross, dot, v0, Prod.mk.injEq] at *
  obtain ⟨h1, h2, h3⟩ := hcab
  obtain ⟨k1, k2, k3⟩ := hcbc
  have hbb : 0 < b1 ^ 2 + b2 ^ 2 + b3 ^ 2 := by
    rcases lt_or_eq_of_le (by positivity : (0 : ℤ) ≤ b1 ^ 2 + b2 ^ 2 + b3 ^ 2) with h | h
    · exact h
    · have hb1 : b1 = 0 := by nlinarith [sq_nonneg b2, sq_nonneg b3]
      have hb2 : b2 = 0 := by nlinarith [sq_nonneg b1, sq_nonneg b3]
      have hb3 : b3 = 0 := by nlinarith [sq_nonneg b1, sq_nonneg b2]
      rw [hb1, hb2, hb3] at hdab
      simp at hdab
  have g1 : (b1 ^ 2 + b2 ^ 2 + b3 ^ 2) * (a2 * c3 - a3 * c2) = 0 := by
    linear_combination (a1 * b1 + a2 * b2 + a3 * b3) * k1 +
      (c2 * b2 + c3 * b3) * h1 - c3 * b1 * h3 - c2 * b1 * h2
  have g2 : (b1 ^ 2 + b2 ^ 2 + b3 ^ 2) * (a3 * c1 - a1 * c3) = 0 := by
    linear_combination (a1 * b1 + a2 * b2 + a3 * b3) * k2 +
      (c1 * b1 + c3 * b3) * h2 - c1 * b2 * h1 - c3 * b2 * h3
  have g3 : (b1 ^ 2 + b2 ^ 2 + b3 ^ 2) * (a1 * c2 - a2 * c1) = 0 := by
    linear_combination (a1 * b1 + a2 * b2 + a3 * b3) * k3 +
      (c1 * b1 + c2 * b2) * h3 - c2 * b3 * h2 - c1 * b3 * h1
  have hbbne : (b1 ^ 2 + b2 ^ 2 + b3 ^ 2) ≠ 0 := ne_of_gt hbb
  have gd : (a1 * c1 + a2 * c2 + a3 * c3) * (b1 ^ 2 + b2 ^ 2 + b3 ^ 2) =
      (a1 * b1 + a2 * b2 + a3 * b3) * (b1 * c1 + b2 * c2 + b3 * c3) := by
    linear_combination (-(b2 * c3 - b3 * c2)) * h1 + (-(b3 * c1 - b1 * c3)) * h2 +
      (-(b1 * c2 - b2 * c1)) * h3
  have e1 := (mul_eq_zero.mp g1).resolve_left hbbne
  have e2 := (mul_eq_zero.mp g2).resolve_left hbbne
  have e3 := (mul_eq_zero.mp g3).resolve_left hbbne
  constructor
  · simp only [cross, v0, Prod.mk.injEq]
    exact ⟨e1, e2, e3⟩
  · simp only [dot]
    nlinarith [mul_pos hdab hdbc]

theorem sameDir_not_antiparallel {a b : Vec3} (h : sameDir a b) :
    ¬ antiparallel a b := by
  rintro ⟨-, hd⟩
  exact absurd h.2 (not_lt.mpr (le_of_lt hd))

/-- The vector of the reflection at index `i` (out-of-range indices give the
zero vector; all uses below are guarded by index bounds). -/
def vecAt (hkl : List Vec3) (i : ℕ) : Vec3 := hkl.getD i v0

/-- Modelled from the spec: `GT.indices_in_flatTriuMatrix` and
`GT.indices_in_TriuMatrix` (module `generaltools`, not under `src/`) select the
strictly upper-triangular entries (i < j) of the rounded pairwise-angle matrix;
combined with `np.where(angle_pairs == 0)`, `FilterHarmonics_2` obtains the
list of index pairs (i, j) with i < j whose rounded mutual angle is zero. -/
def zeroPairs (hkl : List Vec3) : List (ℕ × ℕ) :=
  (List.range hkl.length).flatMap (fun i =>
    ((List.range hkl.length).filter
      (fun j => decide (i < j ∧ sameDir (vecAt hkl i) (vecAt hkl j)))).map
      (fun j => (i, j)))

theorem mem_zeroPairs {hkl : List Vec3} {i j : ℕ} :
    (i, j) ∈ zeroPairs hkl ↔
      i < j ∧ j < hkl.length ∧ sameDir (vecAt hkl i) (vecAt hkl j) := by
  simp only [zeroPairs, List.mem_flatMap, List.mem_map, List.mem_filter,
    List.mem_range, decide_eq_true_eq, Prod.mk.injEq]
  constructor
  · rintro ⟨a, ha, b, ⟨hb, hab, hs⟩, rfl, rfl⟩
    exact ⟨hab, hb, hs⟩
  · rintro ⟨hij, hj, hs⟩
    exact ⟨i, lt_trans hij hj, j, ⟨hj, hij, hs⟩, rfl, rfl⟩

/-- The symmetric "exactly parallel" relation on in-range indices. -/
def pRel (hkl : List Vec3) (u v : ℕ) : Prop :=
  u < hkl.length ∧ v < hkl.length ∧ u ≠ v ∧ sameDir (vecAt hkl u) (vecAt hkl v)

theorem pRel_symm {hkl : List Vec3} {u v : ℕ} (h : pRel hkl u v) : pRel hkl v u :=
  ⟨h.2.1, h.1, (h.2.2.1).symm, sameDir_symm h.2.2.2⟩

theorem pRel_trans {hkl : List Vec3} {u v w : ℕ} (h1 : pRel hkl u v)
    (h2 : pRel hkl v w) : w = u ∨ pRel hkl u w := by
  by_cases hw : w = u
  · exact Or.inl hw
  · exact Or.inr ⟨h1.1, h2.2.1, fun he => hw he.symm,
      sameDir_trans h1.2.2.2 h2.2.2.2⟩

theorem edge_of_pRel {hkl : List Vec3} {u v : ℕ} (h : pRel hkl u v) :
    (u, v) ∈ zeroPairs hkl ∨ (v, u) ∈ zeroPairs hkl := by
  rcases lt_or_gt_of_ne h.2.2.1 with hlt | hgt
  · exact Or.inl (mem_zeroPairs.mpr ⟨hlt, h.2.1, h.2.2.2⟩)
  · exact Or.inr (mem_zeroPairs.mpr ⟨hgt, h.1, sameDir_symm h.2.2.2⟩)

/-- Neighbours of a node in an undirected edge list. -/
def nbrs (edges : List (ℕ × ℕ)) (u : ℕ) : List ℕ :=
  edges.filterMap (fun p =>
    if p.1 = u then some p.2 else if p.2 = u then some p.1 else none)

theorem mem_nbrs_zeroPairs {hkl : List Vec3} {u x : ℕ} :
    x ∈ nbrs (zeroPairs hkl) u ↔ pRel hkl u x := by
  simp only [nbrs, List.mem_filterMap]
  constructor
  · rintro ⟨⟨a, b⟩, hmem, hf⟩
    obtain ⟨hab, hb, hs⟩ := mem_zeroPairs.mp hmem
    by_cases h1 : a = u
    · simp only [h1, if_pos rfl] at hf
      obtain rfl : b = x := by injection hf
      subst h1
      exact ⟨lt_trans hab hb, hb, Nat.ne_of_lt hab, hs⟩
    · rw [if_neg h1] at hf
      by_cases h2 : b = u
      · rw [if_pos h2] at hf
        obtain rfl : a = x := by injection hf
        subst h2
        exact ⟨hb, lt_trans hab hb, (Nat.ne_of_lt hab).symm, sameDir_symm hs⟩
      · rw [if_neg h2] at hf
        cases hf
  · intro h
    rcases edge_of_pRel h with he | he
    · exact ⟨(u, x), he, by simp⟩
    · refine ⟨(x, u), he, ?_⟩
      have : x ≠ u := h.2.2.1.symm
      simp [this]

/-- One breadth step: a node set together with all neighbours of its members. -/
def expand (edges : List (ℕ × ℕ)) (s : List ℕ) : List ℕ :=
  (s ++ s.flatMap (nbrs edges)).dedup

theorem mem_expand {edges : List (ℕ × ℕ)} {s : List ℕ} {x : ℕ} :
    x ∈ expand edges s ↔ x ∈ s ∨ ∃ u ∈ s, x ∈ nbrs edges u := by
  simp [expand, List.mem_dedup, List.mem_append, List.mem_flatMap]

/-- Fuel-bounded reachable set of a node. -/
def reach (edges : List (ℕ × ℕ)) : ℕ → ℕ → List ℕ
  | 0, u => [u]
  | n + 1, u => expand edges (reach edges n u)

/-- Modelled from the spec: `GT.getSets` (module `generaltools`, not under
`src/`) computes the connected components of the relation given by the edge
list — the spec requires "compute connected components, not pairwise cliques" —
returning each component as an ascending sequence of node indices.  Nodes of
the edge list are finitely many, so `|involved|` breadth steps saturate. -/
def involved (edges : List (ℕ × ℕ)) : List ℕ :=
  (edges.flatMap (fun p => [p.1, p.2])).dedup

theorem mem_involved_zeroPairs {hkl : List Vec3} {u : ℕ} :
    u ∈ involved (zeroPairs hkl) ↔ ∃ v, pRel hkl u v := by
  simp only [involved, List.mem_dedup, List.mem_flatMap]
  constructor
  · rintro ⟨⟨a, b⟩, hmem, hu⟩
    obtain ⟨hab, hb, hs⟩ := mem_zeroPairs.mp hmem
    simp only [List.mem_cons, List.mem_singleton, List.not_mem_nil, or_false] at hu
    rcases hu with rfl | rfl
    · exact ⟨b, lt_trans hab hb, hb, Nat.ne_of_lt hab, hs⟩
    · exact ⟨a, hb, lt_trans hab hb, (Nat.ne_of_lt hab).symm, sameDir_symm hs⟩
  · rintro ⟨v, hv⟩
    rcases edge_of_pRel hv with he | he
    · exact ⟨(u, v), he, by simp⟩
    · exact ⟨(v, u), he, by simp⟩

/-- The connected component of a node, as an ascending list. -/
def component (edges : List (ℕ × ℕ)) (u : ℕ) : List ℕ :=
  List.insertionSort (· ≤ ·) (reach edges (involved edges).length u)

/-- Modelled from the spec: `GT.getSets`, the list of connected components of
the zero-angle pair list (one sorted component per involved node, with
duplicates collapsed). -/
def getSets (edges : List (ℕ × ℕ)) : List (List ℕ) :=
  ((involved edges).map (component edges)).dedup

theorem mem_getSets {edges : List (ℕ × ℕ)} {g : List ℕ} :
    g ∈ getSets edges ↔ ∃ u ∈ involved edges, component edges u = g := by
  simp [getSets, List.mem_dedup, List.mem_map]

/-- With at least one breadth step of fuel, the reachable set of `u` under the
zero-angle edges collapses to `u` together with its direct parallels: the
parallel relation is symmetric and transitive, so connected components are
closed neighbourhoods. -/
theorem mem_reach_iff {hkl : List Vec3} {m : ℕ} (hm : 1 ≤ m) {u x : ℕ} :
    x ∈ reach (zeroPairs hkl) m u ↔ x = u ∨ pRel hkl u x := by
  induction m, hm using Nat.le_induction generalizing x with
  | base =>
    show x ∈ expand (zeroPairs hkl) (reach (zeroPairs hkl) 0 u) ↔ _
    rw [mem_expand]
    constructor
    · rintro (hx | ⟨s, hs, hnb⟩)
      · simp only [reach, List.mem_singleton] at hx
        exact Or.inl hx
      · simp only [reach, List.mem_singleton] at hs
        subst hs
        exact Or.inr (mem_nbrs_zeroPairs.mp hnb)
    · rintro (rfl | hp)
      · exact Or.inl (by simp [reach])
      · exact Or.inr ⟨u, by simp [reach], mem_nbrs_zeroPairs.mpr hp⟩
  | succ n hn ih =>
    show x ∈ expand (zeroPairs hkl) (reach (zeroPairs hkl) n u) ↔ _
    rw [mem_expand]
    constructor
    · rintro (hx | ⟨s, hs, hnb⟩)
      · exact ih.mp hx
      · rcases ih.mp hs with rfl | hp
        · exact Or.inr (mem_nbrs_zeroPairs.mp hnb)
        · rcases pRel_trans hp (mem_nbrs_zeroPairs.mp hnb) with rfl | h
          · exact Or.inl rfl
          · exact Or.inr h
    · intro h
      exact Or.inl (ih.mpr h)

theorem zeroPairs_ne_nil_of_involved {hkl : List Vec3} {u : ℕ}
    (hu : u ∈ involved (zeroPairs hkl)) : zeroPairs hkl ≠ [] := by
  intro hnil
  rw [hnil] at hu
  simp [involved] at hu

theorem involved_length_pos {hkl : List Vec3} (h : zeroPairs hkl ≠ []) :
    1 ≤ (involved (zeroPairs hkl)).length := by
  obtain ⟨p, hp⟩ := List.exists_mem_of_ne_nil _ h
  have : p.1 ∈ involved (zeroPairs hkl) := by
    simp only [involved, List.mem_dedup, List.mem_flatMap]
    exact ⟨p, hp, by simp⟩
  exact List.length_pos.mpr (List.ne_nil_of_mem this)

theorem mem_component_iff {hkl : List Vec3} (h : zeroPairs hkl ≠ []) {u x : ℕ} :
    x ∈ component (zeroPairs hkl) u ↔ x = u ∨ pRel hkl u x := by
  unfold component
  rw [(List.perm_insertionSort _ _).mem_iff]
  exact mem_reach_iff (involved_length_pos h)

theorem component_sorted (edges : List (ℕ × ℕ)) (u : ℕ) :
    (component edges u).Sorted (· ≤ ·) :=
  List.sorted_insertionSort _ _

theorem component_nodup {hkl : List Vec3} (h : zeroPairs hkl ≠ []) (u : ℕ) :
    (component (zeroPairs hkl) u).Nodup := by
  unfold component
  rw [(List.perm_insertionSort _ _).nodup_iff]
  obtain ⟨k, hk⟩ :=
    Nat.exists_eq_add_of_le (involved_length_pos h)
  rw [hk, Nat.add_comm 1 k]
  simp only [reach]
  exact List.nodup_dedup _

theorem or_pRel_congr {hkl : List Vec3} {u v : ℕ}
    (huv : u = v ∨ pRel hkl u v) (y : ℕ) :
    (y = u ∨ pRel hkl u y) → (y = v ∨ pRel hkl v y) := by
  rcases huv with rfl | hp
  · exact id
  · rintro (rfl | hy)
    · exact Or.inr (pRel_symm hp)
    · exact pRel_trans (pRel_symm hp) hy

/-- Two components that share a node are equal (as sorted duplicate-free
lists). -/
theorem component_eq_of_mem {hkl : List Vec3} (h : zeroPairs hkl ≠ [])
    {u v x : ℕ} (hxu : x ∈ component (zeroPairs hkl) u)
    (hxv : x ∈ component (zeroPairs hkl) v) :
    component (zeroPairs hkl) u = component (zeroPairs hkl) v := by
  have hu := (mem_component_iff h).mp hxu
  have hv := (mem_component_iff h).mp hxv
  have huv : u = v ∨ pRel hkl u v := by
    rcases hu with rfl | hpu
    · rcases hv with rfl | hpv
      · exact Or.inl rfl
      · exact Or.inr (pRel_symm hpv)
    · rcases hv with rfl | hpv
      · exact Or.inr hpu
      · rcases pRel_trans hpu (pRel_symm hpv) with rfl | hw
        · exact Or.inl rfl
        · exact Or.inr hw
  have hvu : v = u ∨ pRel hkl v u := by
    rcases huv with rfl | hp
    · exact Or.inl rfl
    · exact Or.inr (pRel_symm hp)
  have hext : ∀ y, y ∈ component (zeroPairs hkl) u ↔ y ∈ component (zeroPairs hkl) v := by
    intro y
    rw [mem_component_iff h, mem_component_iff h]
    exact ⟨or_pRel_congr huv y, or_pRel_congr hvu y⟩
  exact List.eq_of_perm_of_sorted
    ((List.perm_ext_iff_of_nodup (component_nodup h u) (component_nodup h v)).mpr hext)
    (component_sorted _ u) (component_sorted _ v)

/-- Distinct harmonic groups are disjoint. -/
theorem getSets_eq_of_mem {hkl : List Vec3} {g1 g2 : List ℕ}
    (h1 : g1 ∈ getSets (zeroPairs hkl)) (h2 : g2 ∈ getSets (zeroPairs hkl))
    {x : ℕ} (hx1 : x ∈ g1) (hx2 : x ∈ g2) : g1 = g2 := by
  obtain ⟨u, hu, rfl⟩ := mem_getSets.mp h1
  obtain ⟨v, hv, rfl⟩ := mem_getSets.mp h2
  exact component_eq_of_mem (zeroPairs_ne_nil_of_involved hu) hx1 hx2

/-- Sum of the absolute values of the three integer components
(`np.sum(np.abs(hkl[clique]), axis=1)`). -/
def abssum (a : Vec3) : ℤ := |a.1| + |a.2.1| + |a.2.2|

/-- Index of the first occurrence of the minimum of a list (`np.argmin`). -/
def argminFirst : List ℤ → ℕ
  | [] => 0
  | [_] => 0
  | x :: y :: xs =>
    let j := argminFirst (y :: xs)
    if x ≤ (y :: xs).getD j 0 then 0 else j + 1

theorem argminFirst_lt_length : ∀ (l : List ℤ), l ≠ [] → argminFirst l < l.length
  | [], h => absurd rfl h
  | [_], _ => by simp [argminFirst]
  | x :: y :: xs, _ => by
    have ih := argminFirst_lt_length (y :: xs) (by simp)
    simp only [argminFirst]
    split
    · simp
    · simpa using Nat.succ_lt_succ ih

theorem argminFirst_min : ∀ (l : List ℤ) (k : ℕ), k < l.length →
    l.getD (argminFirst l) 0 ≤ l.getD k 0
  | [], k, hk => by simp at hk
  | [x], k, hk => by
    have : k = 0 := by simpa using hk
    subst this
    simp [argminFirst]
  | x :: y :: xs, k, hk => by
    simp only [argminFirst]
    split
    case isTrue h =>
      cases k with
      | zero => simp
      | succ k =>
        simp only [List.getD_cons_zero, List.getD_cons_succ]
        refine le_trans h (argminFirst_min (y :: xs) k ?_)
        simpa using Nat.lt_of_succ_lt_succ hk
    case isFalse h =>
      push_neg at h
      cases k with
      | zero =>
        simp only [List.getD_cons_succ, List.getD_cons_zero]
        exact le_of_lt h
      | succ k =>
        simp only [List.getD_cons_succ]
        exact argminFirst_min (y :: xs) k (by simpa using Nat.lt_of_succ_lt_succ hk)

theorem argminFirst_strict : ∀ (l : List ℤ) (k : ℕ), k < argminFirst l →
    l.getD (argminFirst l) 0 < l.getD k 0
  | [], k, hk => by simp [argminFirst] at hk
  | [_], k, hk => by simp [argminFirst] at hk
  | x :: y :: xs, k, hk => by
    revert hk
    simp only [argminFirst]
    split
    case isTrue h => omega
    case isFalse h =>
      intro hk
      push_neg at h
      cases k with
      | zero =>
        simp only [List.getD_cons_succ, List.getD_cons_zero]
        exact h
      | succ k =>
        simp only [List.getD_cons_succ]
        exact argminFirst_strict (y :: xs) k (Nat.lt_of_succ_lt_succ hk)

/-- The kept representative of a harmonic group
(`clique[np.argmin(np.sum(np.abs(np.take(hkl, clique, axis=0)), axis=1))]`):
the member of the group whose vector has the minimal sum of absolute
components, first position on ties. -/
def bestRep (hkl : List Vec3) (cli : List ℕ) : ℕ :=
  cli.getD (argminFirst (cli.map (fun m => abssum (vecAt hkl m)))) 0

theorem getD_map_abssum {hkl : List Vec3} {cli : List ℕ} {k : ℕ}
    (hk : k < cli.length) :
    (cli.map (fun m => abssum (vecAt hkl m))).getD k 0 =
      abssum (vecAt hkl (cli.getD k 0)) := by
  have hk2 : k < (cli.map (fun m => abssum (vecAt hkl m))).length := by
    simpa using hk
  rw [List.getD_eq_getElem _ _ hk2, List.getD_eq_getElem _ _ hk, List.getElem_map]

theorem bestRep_mem {hkl : List Vec3} {cli : List ℕ} (h : cli ≠ []) :
    bestRep hkl cli ∈ cli := by
  unfold bestRep
  have hlt : argminFirst (cli.map (fun m => abssum (vecAt hkl m))) < cli.length := by
    have := argminFirst_lt_length (cli.map (fun m => abssum (vecAt hkl m)))
      (by simpa using h)
    simpa using this
  rw [List.getD_eq_getElem _ _ hlt]
  exact List.getElem_mem _

theorem bestRep_min {hkl : List Vec3} {cli : List ℕ} {m : ℕ} (hm : m ∈ cli) :
    abssum (vecAt hkl (bestRep hkl cli)) ≤ abssum (vecAt hkl m) := by
  obtain ⟨k, hk, rfl⟩ := List.mem_iff_getElem.mp hm
  have hk2 : k < (cli.map (fun m => abssum (vecAt hkl m))).length := by simpa using hk
  have hmin := argminFirst_min (cli.map (fun m => abssum (vecAt hkl m))) k hk2
  have hlt : argminFirst (cli.map (fun m => abssum (vecAt hkl m))) < cli.length := by
    have := argminFirst_lt_length (cli.map (fun m => abssum (vecAt hkl m)))
      (List.ne_nil_of_length_pos (by simpa using Nat.lt_of_le_of_lt (Nat.zero_le _) hk2))
    simpa using this
  rw [getD_map_abssum hlt, getD_map_abssum hk] at hmin
  unfold bestRep
  rw [List.getD_eq_getElem _ _ hk] at hmin
  exact hmin

/-- On ties in the absolute-component sum, the representative of an ascending
group is the member with the lowest original index. -/
theorem bestRep_tieLow {hkl : List Vec3} {cli : List ℕ} (hs : cli.Sorted (· ≤ ·))
    {m : ℕ} (hm : m ∈ cli)
    (heq : abssum (vecAt hkl m) = abssum (vecAt hkl (bestRep hkl cli))) :
    bestRep hkl cli ≤ m := by
  obtain ⟨k, hk, rfl⟩ := List.mem_iff_getElem.mp hm
  have hk2 : k < (cli.map (fun m => abssum (vecAt hkl m))).length := by simpa using hk
  set p := argminFirst (cli.map (fun m => abssum (vecAt hkl m))) with hp
  have hplt : p < cli.length := by
    have := argminFirst_lt_length (cli.map (fun m => abssum (vecAt hkl m)))
      (List.ne_nil_of_length_pos (by simpa using Nat.lt_of_le_of_lt (Nat.zero_le _) hk2))
    simpa using this
  rcases Nat.lt_or_ge k p with hkp | hkp
  · exfalso
    have hstrict := argminFirst_strict (cli.map (fun m => abssum (vecAt hkl m))) k hkp
    rw [getD_map_abssum hplt, getD_map_abssum hk] at hstrict
    have : bestRep hkl cli = cli.getD p 0 := rfl
    rw [List.getD_eq_getElem _ _ hk] at hstrict
    rw [this] at heq
    omega
  · have : bestRep hkl cli = cli.getD p 0 := rfl
    rw [this, List.getD_eq_getElem _ _ hplt]
    rcases Nat.eq_or_lt_of_le hkp with rfl | hlt
    · exact le_refl _
    · exact List.pairwise_iff_getElem.mp hs p k hplt hk hlt

/-- The original indices kept by `np.delete(hkl, rm, axis=0)`, ascending. -/
def keptIdx (hkl : List Vec3) (rm : List ℕ) : List ℕ :=
  (List.range hkl.length).filter (fun i => decide (i ∉ rm))

/-- `np.delete(hkl, toremove, axis=0)`: drop the rows whose index occurs in
`rm`, keeping the remaining rows in their original order. -/
def deleteIdx (hkl : List Vec3) (rm : List ℕ) : List Vec3 :=
  (keptIdx hkl rm).map (vecAt hkl)

/-- The harmonic groups of a vector list: connected components of the
zero-rounded-angle relation on the strictly-upper-triangular index pairs. -/
def harmonicGroups (hkl : List Vec3) : List (List ℕ) := getSets (zeroPairs hkl)

/-- The representatives kept from each harmonic group (`tokeep`). -/
def tokeepList (hkl : List Vec3) : List ℕ :=
  (harmonicGroups hkl).map (bestRep hkl)

/-- The removed original indices (`initial_set - set(tokeep)`). -/
def toremoveList (hkl : List Vec3) : List ℕ :=
  (((harmonicGroups hkl).flatMap id).dedup).filter (fun m => decide (m ∉ tokeepList hkl))

/-- Embedding of `CrystalParameters.FilterHarmonics_2`: keep, for every set of
mutually parallel Miller-index vectors, only the representative with the
smallest absolute-component sum; result is the pair (filtered vectors, removed
original indices).  Mirrors the three branches of the source: a single-row
input is returned unchanged, an input with no zero rounded angle in the strict
upper triangle is returned unchanged, and otherwise the non-representative
members of each connected group of parallels are deleted. -/
def FilterHarmonics_2 (hkl : List Vec3) : List Vec3 × List ℕ :=
  if hkl.length = 1 then (hkl, [])
  else if zeroPairs hkl = [] then (hkl, [])
  else (deleteIdx hkl (toremoveList hkl), toremoveList hkl)

theorem zeroPairs_of_short {hkl : List Vec3} (h : hkl.length ≤ 1) :
    zeroPairs hkl = [] := by
  rw [List.eq_nil_iff_forall_not_mem]
  rintro ⟨i, j⟩ hmem
  obtain ⟨hij, hj, -⟩ := mem_zeroPairs.mp hmem
  omega

theorem toremoveList_of_no_pairs {hkl : List Vec3} (h : zeroPairs hkl = []) :
    toremoveList hkl = [] := by
  unfold toremoveList harmonicGroups
  rw [h]
  rfl

theorem map_vecAt_range (hkl : List Vec3) :
    (List.range hkl.length).map (vecAt hkl) = hkl := by
  apply List.ext_getElem
  · simp
  · intro i h1 h2
    simp only [List.getElem_map, List.getElem_range, vecAt]
    rw [List.getD_eq_getElem _ _ h2]

theorem deleteIdx_nil (hkl : List Vec3) : deleteIdx hkl [] = hkl := by
  unfold deleteIdx keptIdx
  have hp : ∀ i : ℕ, (decide (i ∉ ([] : List ℕ))) = true := by simp
  rw [List.filter_eq_self.mpr (fun a _ => hp a)]
  exact map_vecAt_range hkl

/-- All three branches of `FilterHarmonics_2` agree with deleting exactly the
non-representative members of the harmonic groups. -/
theorem FilterHarmonics_2_eq (hkl : List Vec3) :
    FilterHarmonics_2 hkl = (deleteIdx hkl (toremoveList hkl), toremoveList hkl) := by
  unfold FilterHarmonics_2
  split
  case isTrue h =>
    have hzp : zeroPairs hkl = [] := zeroPairs_of_short (by omega)
    rw [toremoveList_of_no_pairs hzp, deleteIdx_nil]
  case isFalse =>
    split
    case isTrue h2 => rw [toremoveList_of_no_pairs h2, deleteIdx_nil]
    case isFalse => rfl

theorem group_mem_self {hkl : List Vec3} {u : ℕ}
    (hu : u ∈ involved (zeroPairs hkl)) : u ∈ component (zeroPairs hkl) u :=
  (mem_component_iff (zeroPairs_ne_nil_of_involved hu)).mpr (Or.inl rfl)

theorem group_ne_nil {hkl : List Vec3} {g : List ℕ}
    (hg : g ∈ harmonicGroups hkl) : g ≠ [] := by
  obtain ⟨u, hu, rfl⟩ := mem_getSets.mp hg
  exact List.ne_nil_of_mem (group_mem_self hu)

theorem group_zeroPairs_ne_nil {hkl : List Vec3} {g : List ℕ}
    (hg : g ∈ harmonicGroups hkl) : zeroPairs hkl ≠ [] := by
  obtain ⟨u, hu, rfl⟩ := mem_getSets.mp hg
  exact zeroPairs_ne_nil_of_involved hu

theorem group_mem_lt {hkl : List Vec3} {g : List ℕ} (hg : g ∈ harmonicGroups hkl)
    {m : ℕ} (hm : m ∈ g) : m < hkl.length := by
  obtain ⟨u, hu, rfl⟩ := mem_getSets.mp hg
  rcases (mem_component_iff (zeroPairs_ne_nil_of_involved hu)).mp hm with rfl | hp
  · obtain ⟨v, hv⟩ := mem_involved_zeroPairs.mp hu
    exact hv.1
  · exact hp.2.1

theorem group_two_mem {hkl : List Vec3} {g : List ℕ}
    (hg : g ∈ harmonicGroups hkl) : ∃ a b, a ∈ g ∧ b ∈ g ∧ a ≠ b := by
  obtain ⟨u, hu, rfl⟩ := mem_getSets.mp hg
  obtain ⟨v, hv⟩ := mem_involved_zeroPairs.mp hu
  refine ⟨u, v, group_mem_self hu, ?_, hv.2.2.1⟩
  exact (mem_component_iff (zeroPairs_ne_nil_of_involved hu)).mpr (Or.inr hv)

theorem one_lt_length_of_two_mem {l : List ℕ} {a b : ℕ} (ha : a ∈ l) (hb : b ∈ l)
    (hab : a ≠ b) : 1 < l.length := by
  match l with
  | [] => cases ha
  | [x] =>
    rw [List.mem_singleton] at ha hb
    exact absurd (ha.trans hb.symm) hab
  | x :: y :: t => simp

theorem group_one_lt_length {hkl : List Vec3} {g : List ℕ}
    (hg : g ∈ harmonicGroups hkl) : 1 < g.length := by
  obtain ⟨a, b, ha, hb, hab⟩ := group_two_mem hg
  exact one_lt_length_of_two_mem ha hb hab

theorem mem_toremoveList {hkl : List Vec3} {m : ℕ} :
    m ∈ toremoveList hkl ↔
      (∃ g ∈ harmonicGroups hkl, m ∈ g) ∧
        ∀ g ∈ harmonicGroups hkl, m ≠ bestRep hkl g := by
  unfold toremoveList tokeepList
  simp only [List.mem_filter, List.mem_dedup, List.mem_flatMap, id_eq,
    decide_eq_true_eq, List.mem_map, not_exists, not_and]
  constructor
  · rintro ⟨⟨g, hg, hm⟩, hnk⟩
    exact ⟨⟨g, hg, hm⟩, fun g2 hg2 he => hnk g2 hg2 he.symm⟩
  · rintro ⟨⟨g, hg, hm⟩, hnk⟩
    exact ⟨⟨g, hg, hm⟩, fun g2 hg2 he => hnk g2 hg2 he.symm⟩

/-- Inside its own group, exactly the non-representative members are
removed. -/
theorem mem_toremove_iff_ne_rep {hkl : List Vec3} {g : List ℕ}
    (hg : g ∈ harmonicGroups hkl) {m : ℕ} (hm : m ∈ g) :
    m ∈ toremoveList hkl ↔ m ≠ bestRep hkl g := by
  rw [mem_toremoveList]
  constructor
  · rintro ⟨-, hall⟩
    exact hall g hg
  · intro hne
    refine ⟨⟨g, hg, hm⟩, ?_⟩
    rintro g2 hg2 rfl
    have hrep2 : bestRep hkl g2 ∈ g2 := bestRep_mem (group_ne_nil hg2)
    have := getSets_eq_of_mem hg hg2 hm hrep2
    subst this
    exact hne rfl

theorem mem_keptIdx {hkl : List Vec3} {rm : List ℕ} {i : ℕ} :
    i ∈ keptIdx hkl rm ↔ i < hkl.length ∧ i ∉ rm := by
  simp [keptIdx, List.mem_filter, List.mem_range]

theorem keptIdx_sorted (hkl : List Vec3) (rm : List ℕ) :
    (keptIdx hkl rm).Sorted (· < ·) :=
  List.Pairwise.sublist (List.filter_sublist _) (List.sorted_lt_range _)

theorem deleteIdx_length (hkl : List Vec3) (rm : List ℕ) :
    (deleteIdx hkl rm).length = (keptIdx hkl rm).length := by
  simp [deleteIdx]

theorem deleteIdx_getElem {hkl : List Vec3} {rm : List ℕ} {k : ℕ}
    (hk : k < (keptIdx hkl rm).length) :
    vecAt (deleteIdx hkl rm) k = vecAt hkl ((keptIdx hkl rm)[k]) := by
  have hk2 : k < (deleteIdx hkl rm).length := by
    rw [deleteIdx_length hkl rm]; exact hk
  show (deleteIdx hkl rm).getD k v0 = vecAt hkl ((keptIdx hkl rm)[k])
  rw [List.getD_eq_getElem _ _ hk2]
  show ((keptIdx hkl rm).map (vecAt hkl))[k] = vecAt hkl ((keptIdx hkl rm)[k])
  rw [List.getElem_map]

/-- No two surviving vectors are parallel: the output of the filter has no
zero-angle pair left. -/
theorem zeroPairs_deleteIdx_toremove (hkl : List Vec3) :
    zeroPairs (deleteIdx hkl (toremoveList hkl)) = [] := by
  rw [List.eq_nil_iff_forall_not_mem]
  rintro ⟨i, j⟩ hmem
  obtain ⟨hij, hj, hsd⟩ := mem_zeroPairs.mp hmem
  set rm := toremoveList hkl with hrm
  have hj2 : j < (keptIdx hkl rm).length := by
    rw [← deleteIdx_length hkl rm]
    exact hj
  have hi2 : i < (keptIdx hkl rm).length := lt_trans hij hj2
  set a := (keptIdx hkl rm)[i] with hadef
  set b := (keptIdx hkl rm)[j] with hbdef
  have hab : a < b :=
    List.pairwise_iff_getElem.mp (keptIdx_sorted hkl rm) i j hi2 hj2 hij
  have hamem : a ∈ keptIdx hkl rm := by
    rw [hadef]; exact List.getElem_mem _
  have hbmem : b ∈ keptIdx hkl rm := by
    rw [hbdef]; exact List.getElem_mem _
  obtain ⟨haN, haK⟩ := mem_keptIdx.mp hamem
  obtain ⟨hbN, hbK⟩ := mem_keptIdx.mp hbmem
  have hsd2 : sameDir (vecAt hkl a) (vecAt hkl b) := by
    rw [← deleteIdx_getElem hi2, ← deleteIdx_getElem hj2]
    exact hsd
  have hp : pRel hkl a b := ⟨haN, hbN, Nat.ne_of_lt hab, hsd2⟩
  have hainv : a ∈ involved (zeroPairs hkl) := mem_involved_zeroPairs.mpr ⟨b, hp⟩
  have hzp : zeroPairs hkl ≠ [] := zeroPairs_ne_nil_of_involved hainv
  have hgmem : component (zeroPairs hkl) a ∈ harmonicGroups hkl :=
    mem_getSets.mpr ⟨a, hainv, rfl⟩
  have haing : a ∈ component (zeroPairs hkl) a := group_mem_self hainv
  have hbing : b ∈ component (zeroPairs hkl) a :=
    (mem_component_iff hzp).mpr (Or.inr hp)
  have ha_rep : a = bestRep hkl (component (zeroPairs hkl) a) := by
    by_contra hne
    exact haK ((mem_toremove_iff_ne_rep hgmem haing).mpr hne)
  have hb_rep : b = bestRep hkl (component (zeroPairs hkl) a) := by
    by_contra hne
    exact hbK ((mem_toremove_iff_ne_rep hgmem hbing).mpr hne)
  rw [← hb_rep] at ha_rep
  omega

/-- Modelled from the spec: the acceptance test of `GT.find_closest` (module
`generaltools`, not under `src/`): a queried value is accepted when the
reference-table entry nearest to it differs from it by at most the tolerance.
For a nonempty table this holds exactly when some entry lies within the
tolerance of the value, and an empty table accepts nothing. -/
def matchB (R : List ℚ) (x tol : ℚ) : Bool :=
  R.any (fun r => decide (|r - x| ≤ tol))

/-- Modelled from the spec: the accepted indices returned by
`GT.find_closest(ReferenceTable, row, ang_tol)[1]` — the positions inside the
queried row whose value matches the reference table within the tolerance. -/
def find_closest_accept (R : List ℚ) (row : List ℚ) (tol : ℚ) : List ℕ :=
  (List.range row.length).filter (fun j => matchB R (row.getD j 0) tol)

/-- Embedding of `graingraph.create_AdjencyMatrix`: a flat zero array of size
`nb_of_spots²` receives, for every row `elem`, a 1 at offset
`elem * nb_of_spots` plus each accepted position of
`GT.find_closest(ReferenceTable, Tabledistance[elem], ang_tol)`, and is then
reshaped to `nb_of_spots × nb_of_spots`: row `i`, column `j` of the result is
1 exactly when position `j` is accepted for row `i` (rows of `Tabledistance`
have length `nb_of_spots`, as `nb_of_spots = len(Tabledistance)`). -/
def create_AdjencyMatrix (Tabledistance : List (List ℚ)) (ReferenceTable : List ℚ)
    (ang_tol : ℚ) (nb_of_spots : ℕ) : List (List ℕ) :=
  (List.range nb_of_spots).map (fun i =>
    (List.range nb_of_spots).map (fun j =>
      if j ∈ find_closest_accept ReferenceTable (Tabledistance.getD i []) ang_tol
      then 1 else 0))

/-- Entry access in a matrix given as a list of rows. -/
def entryAt (M : List (List ℕ)) (i j : ℕ) : ℕ := (M.getD i []).getD j 0

/-- Entry access in a rational matrix given as a list of rows. -/
def entryQ (M : List (List ℚ)) (i j : ℕ) : ℚ := (M.getD i []).getD j 0

theorem mem_find_closest_accept {R row : List ℚ} {tol : ℚ} {j : ℕ} :
    j ∈ find_closest_accept R row tol ↔
      j < row.length ∧ ∃ r ∈ R, |r - row.getD j 0| ≤ tol := by
  simp only [find_closest_accept, List.mem_filter, List.mem_range, matchB,
    List.any_eq_true, decide_eq_true_eq]

theorem entryAt_create {D : List (List ℚ)} {R : List ℚ} {tol : ℚ} {n i j : ℕ}
    (hi : i < n) (hj : j < n) :
    entryAt (create_AdjencyMatrix D R tol n) i j =
      if j ∈ find_closest_accept R (D.getD i []) tol then 1 else 0 := by
  unfold entryAt create_AdjencyMatrix
  have hi2 : i < ((List.range n).map (fun i =>
      (List.range n).map (fun j =>
        if j ∈ find_closest_accept R (D.getD i []) tol then 1 else 0))).length := by
    simpa using hi
  rw [List.getD_eq_getElem _ _ hi2, List.getElem_map, List.getElem_range]
  have hj2 : j < ((List.range n).map (fun j =>
      if j ∈ find_closest_accept R (D.getD i []) tol then 1 else 0)).length := by
    simpa using hj
  rw [List.getD_eq_getElem _ _ hj2, List.getElem_map, List.getElem_range]

theorem entryAt_create_row_oob {D : List (List ℚ)} {R : List ℚ} {tol : ℚ}
    {n i j : ℕ} (hi : n ≤ i) :
    entryAt (create_AdjencyMatrix D R tol n) i j = 0 := by
  unfold entryAt create_AdjencyMatrix
  have h0 : ((List.range n).map (fun i =>
      (List.range n).map (fun j =>
        if j ∈ find_closest_accept R (D.getD i []) tol then 1 else 0))).getD i [] =
        ([] : List ℕ) :=
    List.getD_eq_default _ _ (by simpa using hi)
  rw [h0]
  rfl

theorem entryAt_create_col_oob {D : List (List ℚ)} {R : List ℚ} {tol : ℚ}
    {n i j : ℕ} (hj : n ≤ j) :
    entryAt (create_AdjencyMatrix D R tol n) i j = 0 := by
  rcases Nat.lt_or_ge i n with hi | hi
  · unfold entryAt create_AdjencyMatrix
    have hi2 : i < ((List.range n).map (fun i =>
        (List.range n).map (fun j =>
          if j ∈ find_closest_accept R (D.getD i []) tol then 1 else 0))).length := by
      simpa using hi
    rw [List.getD_eq_getElem _ _ hi2, List.getElem_map, List.getElem_range,
      List.getD_eq_default]
    simpa using hj
  · exact entryAt_create_row_oob hi

/-- Index of the first occurrence of the maximum of a list (`np.argmax`). -/
def argmaxFirst : List ℕ → ℕ
  | [] => 0
  | [_] => 0
  | x :: y :: xs =>
    let j := argmaxFirst (y :: xs)
    if (y :: xs).getD j 0 ≤ x then 0 else j + 1

theorem argmaxFirst_lt_length : ∀ (l : List ℕ), l ≠ [] → argmaxFirst l < l.length
  | [], h => absurd rfl h
  | [_], _ => by simp [argmaxFirst]
  | x :: y :: xs, _ => by
    have ih := argmaxFirst_lt_length (y :: xs) (by simp)
    simp only [argmaxFirst]
    split
    · simp
    · simpa using Nat.succ_lt_succ ih

theorem argmaxFirst_max : ∀ (l : List ℕ) (k : ℕ), k < l.length →
    l.getD k 0 ≤ l.getD (argmaxFirst l) 0
  | [], k, hk => by simp at hk
  | [x], k, hk => by
    have : k = 0 := by simpa using hk
    subst this
    simp [argmaxFirst]
  | x :: y :: xs, k, hk => by
    simp only [argmaxFirst]
    split
    case isTrue h =>
      cases k with
      | zero => simp
      | succ k =>
        simp only [List.getD_cons_zero, List.getD_cons_succ]
        refine le_trans (argmaxFirst_max (y :: xs) k ?_) h
        simpa using Nat.lt_of_succ_lt_succ hk
    case isFalse h =>
      push_neg at h
      cases k with
      | zero =>
        simp only [List.getD_cons_succ, List.getD_cons_zero]
        exact le_of_lt h
      | succ k =>
        simp only [List.getD_cons_succ]
        exact argmaxFirst_max (y :: xs) k (by simpa using Nat.lt_of_succ_lt_succ hk)

theorem argmaxFirst_strict : ∀ (l : List ℕ) (k : ℕ), k < argmaxFirst l →
    l.getD k 0 < l.getD (argmaxFirst l) 0
  | [], k, hk => by simp [argmaxFirst] at hk
  | [_], k, hk => by simp [argmaxFirst] at hk
  | x :: y :: xs, k, hk => by
    revert hk
    simp only [argmaxFirst]
    split
    case isTrue h => omega
    case isFalse h =>
      intro hk
      push_neg at h
      cases k with
      | zero =>
        simp only [List.getD_cons_succ, List.getD_cons_zero]
        exact h
      | succ k =>
        simp only [List.getD_cons_succ]
        exact argmaxFirst_strict (y :: xs) k (Nat.lt_of_succ_lt_succ hk)

/-- Embedding of `graingraph.bestclique_oneNode`: compute the lengths of all
cliques in the given list, pick the clique at `np.argmax` of the lengths
(first position on ties), and return it sorted ascending (`np.sort`). -/
def bestclique_oneNode (CliquesList : List (List ℕ)) : List ℕ :=
  List.insertionSort (· ≤ ·)
    (CliquesList.getD (argmaxFirst (CliquesList.map List.length)) [])

/-- Indices sorted by decreasing intensity (`np.argsort(data_I)[::-1]`): an
ascending value sort of the index range, reversed.  `np.argsort` fixes no
order among equal intensities (its default sort is unstable); the embedding
uses one definite such order. -/
def argsortDesc (intens : List ℚ) : List ℕ :=
  (List.insertionSort (fun a b => intens.getD a 0 ≤ intens.getD b 0)
    (List.range intens.length)).reverse

/-- The selected spots `(theta, chi)` in intensity order
(`data_theta[sorted_int_index]`, `data_chi[sorted_int_index]`). -/
def selectSpots (theta chi : List ℚ) (idx : List ℕ) : List (ℚ × ℚ) :=
  idx.map (fun k => (theta.getD k 0, chi.getD k 0))

/-- The mutual pairwise distance matrix over a spot list under a distance
kernel (`INDEX.calculdist_from_thetachi(sorted_data, sorted_data)`). -/
def distMatrix (dist : (ℚ × ℚ) → (ℚ × ℚ) → ℚ) (pts : List (ℚ × ℚ)) :
    List (List ℚ) :=
  pts.map (fun p => pts.map (fun q => dist p q))

/-- Embedding of `graingraph.TableDistance_exp` (selection semantics).  The
angular-distance kernel `INDEX.calculdist_from_thetachi` (module
`indexingAnglesLUT`, not under `src/`) is abstracted as the parameter `dist`.
For `nb_of_spots > 0` the `min(nb_of_spots, nbp)` most intense spots are
selected; for `nb_of_spots = -1` every spot is used and the returned count is
the number of spots; for any other value neither branch of the source binds
`sorted_int_index` and the call dies with an unbound-local error, modelled as
`none`. -/
def TableDistance_exp (dist : (ℚ × ℚ) → (ℚ × ℚ) → ℚ)
    (theta chi intens : List ℚ) (nb_of_spots : ℤ) :
    Option (List (List ℚ) × ℕ) :=
  let nbp := theta.length
  if 0 < nb_of_spots then
    let upto := min nb_of_spots.toNat nbp
    let idx := (argsortDesc intens).take upto
    some (distMatrix dist (selectSpots theta chi idx), upto)
  else if nb_of_spots = -1 then
    some (distMatrix dist (selectSpots theta chi (argsortDesc intens)), nbp)
  else none

theorem row_length {D : List (List ℚ)} (hrows : ∀ row ∈ D, row.length = D.length)
    {i : ℕ} (hi : i < D.length) : (D.getD i []).length = D.length := by
  apply hrows
  rw [List.getD_eq_getElem _ _ hi]
  exact List.getElem_mem _

theorem nearest_within_iff {R : List ℚ} {x tol : ℚ} :
    (∃ r ∈ R, (∀ s ∈ R, |r - x| ≤ |s - x|) ∧ |r - x| ≤ tol) ↔
      ∃ r ∈ R, |r - x| ≤ tol := by
  constructor
  · rintro ⟨r, hr, -, hle⟩
    exact ⟨r, hr, hle⟩
  · rintro ⟨r, hr, hle⟩
    rcases hm : List.argmin (fun r => |r - x|) R with - | m
    · rw [List.argmin_eq_none] at hm
      subst hm
      cases hr
    · have hmm : m ∈ List.argmin (fun r => |r - x|) R := by rw [hm]; rfl
      refine ⟨m, List.argmin_mem hmm,
        fun s hs => @List.le_of_mem_argmin ℚ ℚ _ (fun r => |r - x|) R s m hs hmm, ?_⟩
      exact le_trans (@List.le_of_mem_argmin ℚ ℚ _ (fun r => |r - x|) R r m hr hmm) hle

/-- C1: for every N×N distance matrix `D`, sorted reference table `R` and
tolerance `ang_tol ≥ 0`, the adjacency matrix built by `create_AdjencyMatrix`
has entry[i][j] = 1 if and only if the `R`-entry nearest to `D[i][j]` differs
from `D[i][j]` by at most `ang_tol`, for every pair `i ≠ j`; the criterion
depends on the single value `D[i][j]` alone, so each cell is decided
independently of every other cell. -/
theorem create_AdjencyMatrix_cell_correct (D : List (List ℚ)) (R : List ℚ)
    (ang_tol : ℚ) (_hsorted : R.Sorted (· ≤ ·)) (_htol : 0 ≤ ang_tol)
    (hrows : ∀ row ∈ D, row.length = D.length) (i j : ℕ)
    (hi : i < D.length) (hj : j < D.length) (_hij : i ≠ j) :
    entryAt (create_AdjencyMatrix D R ang_tol D.length) i j = 1 ↔
      ∃ r ∈ R, (∀ s ∈ R, |r - entryQ D i j| ≤ |s - entryQ D i j|) ∧
        |r - entryQ D i j| ≤ ang_tol := by
  rw [entryAt_create hi hj, nearest_within_iff]
  by_cases hmem : j ∈ find_closest_accept R (D.getD i []) ang_tol
  · rw [if_pos hmem]
    obtain ⟨-, hex⟩ := mem_find_closest_accept.mp hmem
    simpa [entryQ] using hex
  · rw [if_neg hmem]
    constructor
    · intro h
      cases h
    · intro hex
      exfalso
      apply hmem
      rw [mem_find_closest_accept]
      refine ⟨?_, by simpa [entryQ] using hex⟩
      rw [row_length hrows hi]
      exact hj

theorem create_AdjencyMatrix_cell_correct_witness :
    (List.Sorted (· ≤ ·) [(10 : ℚ), 20, 30] ∧ (0 : ℚ) ≤ 1 ∧
      (∀ row ∈ [[(0 : ℚ), 10], [10, 0]], row.length = 2) ∧
      (0 : ℕ) ≠ 1) ∧
    (entryAt (create_AdjencyMatrix [[(0 : ℚ), 10], [10, 0]] [10, 20, 30] 1 2) 0 1 = 1 ↔
      ∃ r ∈ [(10 : ℚ), 20, 30],
        (∀ s ∈ [(10 : ℚ), 20, 30],
          |r - entryQ [[(0 : ℚ), 10], [10, 0]] 0 1| ≤
            |s - entryQ [[(0 : ℚ), 10], [10, 0]] 0 1|) ∧
        |r - entryQ [[(0 : ℚ), 10], [10, 0]] 0 1| ≤ 1) :=
  ⟨⟨by decide, by decide, by decide, by decide⟩,
    create_AdjencyMatrix_cell_correct [[(0 : ℚ), 10], [10, 0]] [10, 20, 30] 1
      (by decide) (by decide) (by decide) 0 1 (by decide) (by decide) (by decide)⟩

/-- C2: for every (row-complete, symmetric) distance matrix, reference table
and tolerance, the adjacency matrix produced by `create_AdjencyMatrix` is
symmetric: entry[i][j] = entry[j][i] for all indices i, j. -/
theorem create_AdjencyMatrix_symmetric (D : List (List ℚ)) (R : List ℚ)
    (ang_tol : ℚ) (hrows : ∀ row ∈ D, row.length = D.length)
    (hsym : ∀ i j : Fin D.length, entryQ D i.val j.val = entryQ D j.val i.val) :
    ∀ i j : ℕ, entryAt (create_AdjencyMatrix D R ang_tol D.length) i j =
      entryAt (create_AdjencyMatrix D R ang_tol D.length) j i := by
  intro i j
  rcases Nat.lt_or_ge i D.length with hi | hi
  · rcases Nat.lt_or_ge j D.length with hj | hj
    · rw [entryAt_create hi hj, entryAt_create hj hi]
      have hiff : j ∈ find_closest_accept R (D.getD i []) ang_tol ↔
          i ∈ find_closest_accept R (D.getD j []) ang_tol := by
        rw [mem_find_closest_accept, mem_find_closest_accept,
          row_length hrows hi, row_length hrows hj]
        have he : (D.getD i []).getD j 0 = (D.getD j []).getD i 0 :=
          hsym ⟨i, hi⟩ ⟨j, hj⟩
        rw [he]
        constructor
        · rintro ⟨-, hx⟩
          exact ⟨hi, hx⟩
        · rintro ⟨-, hx⟩
          exact ⟨hj, hx⟩
      by_cases hmem : j ∈ find_closest_accept R (D.getD i []) ang_tol
      · rw [if_pos hmem, if_pos (hiff.mp hmem)]
      · rw [if_neg hmem, if_neg (fun hc => hmem (hiff.mpr hc))]
    · rw [entryAt_create_col_oob hj, entryAt_create_row_oob hj]
  · rw [entryAt_create_row_oob hi, entryAt_create_col_oob hi]

theorem create_AdjencyMatrix_symmetric_witness :
    ((∀ row ∈ [[(0 : ℚ), 10], [10, 0]], row.length = 2) ∧
      (∀ i j : Fin ([[(0 : ℚ), 10], [10, 0]] : List (List ℚ)).length,
        entryQ [[(0 : ℚ), 10], [10, 0]] i.val j.val =
          entryQ [[(0 : ℚ), 10], [10, 0]] j.val i.val)) ∧
    (∀ i j : ℕ,
      entryAt (create_AdjencyMatrix [[(0 : ℚ), 10], [10, 0]] [10, 20, 30] 1 2) i j =
        entryAt (create_AdjencyMatrix [[(0 : ℚ), 10], [10, 0]] [10, 20, 30] 1 2) j i) :=
  ⟨⟨by decide, by decide⟩,
    create_AdjencyMatrix_symmetric [[(0 : ℚ), 10], [10, 0]] [10, 20, 30] 1
      (by decide) (by decide)⟩

/-- C8: an empty reference table is not an error: `create_AdjencyMatrix`
returns the all-zero adjacency matrix (every cell 0, so the consistency graph
is edgeless). -/
theorem create_AdjencyMatrix_empty_ref (D : List (List ℚ)) (ang_tol : ℚ) (n : ℕ) :
    create_AdjencyMatrix D [] ang_tol n = List.replicate n (List.replicate n 0) ∧
      ∀ i j : ℕ, entryAt (create_AdjencyMatrix D [] ang_tol n) i j = 0 := by
  have haccept : ∀ row : List ℚ, find_closest_accept [] row ang_tol = [] := by
    intro row
    simp [find_closest_accept, matchB]
  have hmat : create_AdjencyMatrix D [] ang_tol n =
      List.replicate n (List.replicate n 0) := by
    unfold create_AdjencyMatrix
    rw [List.eq_replicate_iff]
    refine ⟨by simp, ?_⟩
    intro row hrow
    rw [List.mem_map] at hrow
    obtain ⟨i, -, rfl⟩ := hrow
    rw [List.eq_replicate_iff]
    refine ⟨by simp, ?_⟩
    intro b hb
    rw [List.mem_map] at hb
    obtain ⟨j, -, rfl⟩ := hb
    rw [haccept]
    simp
  refine ⟨hmat, ?_⟩
  intro i j
  rw [hmat]
  unfold entryAt
  rcases Nat.lt_or_ge i n with hi | hi
  · have h1 : (List.replicate n (List.replicate n (0 : ℕ))).getD i [] =
        List.replicate n 0 := by
      rw [List.getD_eq_getElem _ _ (by simpa using hi)]
      exact List.getElem_replicate _ _
    rw [h1]
    rcases Nat.lt_or_ge j n with hj | hj
    · rw [List.getD_eq_getElem _ _ (by simpa using hj)]
      exact List.getElem_replicate _ _
    · exact List.getD_eq_default _ _ (by simpa using hj)
  · have h0 : (List.replicate n (List.replicate n (0 : ℕ))).getD i [] = [] :=
      List.getD_eq_default _ _ (by simpa using hi)
    rw [h0]
    rfl

theorem getD_map_length {L : List (List ℕ)} {k : ℕ} (hk : k < L.length) :
    (L.map List.length).getD k 0 = (L.getD k []).length := by
  have hk2 : k < (L.map List.length).length := by simpa using hk
  rw [List.getD_eq_getElem _ _ hk2, List.getD_eq_getElem _ _ hk, List.getElem_map]

/-- C3: for every non-empty clique list, `bestclique_oneNode` returns (sorted
ascending) the clique at the first position of maximal cardinality: no clique
in the list is strictly larger, every clique strictly before the chosen
position is strictly smaller, and the result is an ascending (strictly
ascending when the clique has no duplicate nodes) permutation of the chosen
clique. -/
theorem bestclique_oneNode_correct (CliquesList : List (List ℕ))
    (h : CliquesList ≠ []) :
    (∀ c ∈ CliquesList, c.length ≤ (bestclique_oneNode CliquesList).length) ∧
    argmaxFirst (CliquesList.map List.length) < CliquesList.length ∧
    (bestclique_oneNode CliquesList).Perm
      (CliquesList.getD (argmaxFirst (CliquesList.map List.length)) []) ∧
    (∀ k, k < argmaxFirst (CliquesList.map List.length) →
      (CliquesList.getD k []).length < (bestclique_oneNode CliquesList).length) ∧
    (bestclique_oneNode CliquesList).Sorted (· ≤ ·) ∧
    ((CliquesList.getD (argmaxFirst (CliquesList.map List.length)) []).Nodup →
      (bestclique_oneNode CliquesList).Sorted (· < ·)) := by
  have hperm : (bestclique_oneNode CliquesList).Perm
      (CliquesList.getD (argmaxFirst (CliquesList.map List.length)) []) :=
    List.perm_insertionSort _ _
  have hplt : argmaxFirst (CliquesList.map List.length) < CliquesList.length := by
    have := argmaxFirst_lt_length (CliquesList.map List.length) (by simpa using h)
    simpa using this
  have hlen : (bestclique_oneNode CliquesList).length =
      (CliquesList.getD (argmaxFirst (CliquesList.map List.length)) []).length :=
    hperm.length_eq
  refine ⟨?_, hplt, hperm, ?_, List.sorted_insertionSort _ _, ?_⟩
  · intro c hc
    obtain ⟨k, hk, rfl⟩ := List.mem_iff_getElem.mp hc
    have hmax := argmaxFirst_max (CliquesList.map List.length) k (by simpa using hk)
    rw [getD_map_length hk, getD_map_length hplt] at hmax
    rw [hlen]
    rw [List.getD_eq_getElem _ _ hk] at hmax
    exact hmax
  · intro k hk
    have hstrict := argmaxFirst_strict (CliquesList.map List.length) k hk
    rw [getD_map_length (lt_trans hk hplt), getD_map_length hplt] at hstrict
    rw [hlen]
    exact hstrict
  · intro hnodup
    exact List.Sorted.lt_of_le (List.sorted_insertionSort _ _)
      (hperm.nodup_iff.mpr hnodup)

theorem bestclique_oneNode_correct_witness :
    (([[3, 1], [2, 5, 4], [9, 8, 7], [1, 2]] : List (List ℕ)) ≠ []) ∧
    ((∀ c ∈ ([[3, 1], [2, 5, 4], [9, 8, 7], [1, 2]] : List (List ℕ)),
        c.length ≤ (bestclique_oneNode [[3, 1], [2, 5, 4], [9, 8, 7], [1, 2]]).length) ∧
      argmaxFirst (([[3, 1], [2, 5, 4], [9, 8, 7], [1, 2]] : List (List ℕ)).map
        List.length) < ([[3, 1], [2, 5, 4], [9, 8, 7], [1, 2]] : List (List ℕ)).length ∧
      (bestclique_oneNode [[3, 1], [2, 5, 4], [9, 8, 7], [1, 2]]).Perm
        (([[3, 1], [2, 5, 4], [9, 8, 7], [1, 2]] : List (List ℕ)).getD
          (argmaxFirst (([[3, 1], [2, 5, 4], [9, 8, 7], [1, 2]] : List (List ℕ)).map
            List.length)) []) ∧
      (∀ k, k < argmaxFirst (([[3, 1], [2, 5, 4], [9, 8, 7], [1, 2]] : List (List ℕ)).map
          List.length) →
        (([[3, 1], [2, 5, 4], [9, 8, 7], [1, 2]] : List (List ℕ)).getD k []).length <
          (bestclique_oneNode [[3, 1], [2, 5, 4], [9, 8, 7], [1, 2]]).length) ∧
      (bestclique_oneNode [[3, 1], [2, 5, 4], [9, 8, 7], [1, 2]]).Sorted (· ≤ ·) ∧
      ((([[3, 1], [2, 5, 4], [9, 8, 7], [1, 2]] : List (List ℕ)).getD
          (argmaxFirst (([[3, 1], [2, 5, 4], [9, 8, 7], [1, 2]] : List (List ℕ)).map
            List.length)) []).Nodup →
        (bestclique_oneNode [[3, 1], [2, 5, 4], [9, 8, 7], [1, 2]]).Sorted (· < ·))) :=
  ⟨by decide, bestclique_oneNode_correct [[3, 1], [2, 5, 4], [9, 8, 7], [1, 2]] (by decide)⟩

theorem argsortDesc_length (intens : List ℚ) :
    (argsortDesc intens).length = intens.length := by
  simp [argsortDesc]

theorem argsortDesc_perm (intens : List ℚ) :
    (argsortDesc intens).Perm (List.range intens.length) :=
  (List.reverse_perm _).trans (List.perm_insertionSort _ _)

theorem selectSpots_length (theta chi : List ℚ) (idx : List ℕ) :
    (selectSpots theta chi idx).length = idx.length := by
  simp [selectSpots]

theorem selectSpots_getD {theta chi : List ℚ} {idx : List ℕ} {i : ℕ}
    (hi : i < idx.length) :
    (selectSpots theta chi idx).getD i (0, 0) =
      (theta.getD (idx.getD i 0) 0, chi.getD (idx.getD i 0) 0) := by
  unfold selectSpots
  have hi2 : i < (idx.map (fun k => (theta.getD k 0, chi.getD k 0))).length := by
    simpa using hi
  rw [List.getD_eq_getElem _ _ hi2, List.getElem_map, List.getD_eq_getElem _ _ hi]

theorem distMatrix_length (dist : (ℚ × ℚ) → (ℚ × ℚ) → ℚ) (pts : List (ℚ × ℚ)) :
    (distMatrix dist pts).length = pts.length := by
  simp [distMatrix]

theorem distMatrix_row_length {dist : (ℚ × ℚ) → (ℚ × ℚ) → ℚ} {pts : List (ℚ × ℚ)}
    {row : List ℚ} (hrow : row ∈ distMatrix dist pts) : row.length = pts.length := by
  obtain ⟨p, -, rfl⟩ := List.mem_map.mp hrow
  simp

theorem distMatrix_entry {dist : (ℚ × ℚ) → (ℚ × ℚ) → ℚ} {pts : List (ℚ × ℚ)}
    {i j : ℕ} (hi : i < pts.length) (hj : j < pts.length) :
    entryQ (distMatrix dist pts) i j =
      dist (pts.getD i (0, 0)) (pts.getD j (0, 0)) := by
  unfold entryQ distMatrix
  have hi2 : i < (pts.map (fun p => pts.map (fun q => dist p q))).length := by
    simpa using hi
  rw [List.getD_eq_getElem _ _ hi2, List.getElem_map]
  have hj2 : j < (pts.map (fun q => dist pts[i] q)).length := by simpa using hj
  rw [List.getD_eq_getElem _ _ hj2, List.getElem_map,
    List.getD_eq_getElem _ _ hi, List.getD_eq_getElem _ _ hj]

/-- C9: with `nb_of_spots = -1`, `TableDistance_exp` uses every available
reflection: it returns the full N×N mutual distance matrix over all N spots in
intensity-sorted order (the selection is a permutation of all N indices)
together with the count N. -/
theorem TableDistance_exp_all_spots (dist : (ℚ × ℚ) → (ℚ × ℚ) → ℚ)
    (theta chi intens : List ℚ) (hlen : intens.length = theta.length) :
    ∃ M, TableDistance_exp dist theta chi intens (-1) = some (M, theta.length) ∧
      M.length = theta.length ∧
      (∀ row ∈ M, row.length = theta.length) ∧
      (argsortDesc intens).Perm (List.range theta.length) ∧
      ∀ i j, i < theta.length → j < theta.length →
        entryQ M i j =
          dist (theta.getD ((argsortDesc intens).getD i 0) 0,
                chi.getD ((argsortDesc intens).getD i 0) 0)
               (theta.getD ((argsortDesc intens).getD j 0) 0,
                chi.getD ((argsortDesc intens).getD j 0) 0) := by
  have hσ : (argsortDesc intens).length = theta.length := by
    rw [argsortDesc_length, hlen]
  have hpts : (selectSpots theta chi (argsortDesc intens)).length = theta.length := by
    rw [selectSpots_length, hσ]
  refine ⟨distMatrix dist (selectSpots theta chi (argsortDesc intens)), ?_, ?_, ?_, ?_, ?_⟩
  · unfold TableDistance_exp
    norm_num
  · rw [distMatrix_length, hpts]
  · intro row hrow
    rw [distMatrix_row_length hrow, hpts]
  · rw [← hlen]
    exact argsortDesc_perm intens
  · intro i j hi hj
    rw [distMatrix_entry (by rw [hpts]; exact hi) (by rw [hpts]; exact hj),
      selectSpots_getD (by rw [hσ]; exact hi), selectSpots_getD (by rw [hσ]; exact hj)]

theorem TableDistance_exp_all_spots_witness :
    (([(5 : ℚ), 7, 6] : List ℚ).length = ([(1 : ℚ), 2, 3] : List ℚ).length) ∧
    (∃ M, TableDistance_exp (fun p q => p.1 - q.1) [(1 : ℚ), 2, 3] [(4 : ℚ), 5, 6]
          [(5 : ℚ), 7, 6] (-1) = some (M, ([(1 : ℚ), 2, 3] : List ℚ).length) ∧
      M.length = ([(1 : ℚ), 2, 3] : List ℚ).length ∧
      (∀ row ∈ M, row.length = ([(1 : ℚ), 2, 3] : List ℚ).length) ∧
      (argsortDesc [(5 : ℚ), 7, 6]).Perm (List.range ([(1 : ℚ), 2, 3] : List ℚ).length) ∧
      ∀ i j, i < ([(1 : ℚ), 2, 3] : List ℚ).length →
        j < ([(1 : ℚ), 2, 3] : List ℚ).length →
        entryQ M i j =
          (fun p q : ℚ × ℚ => p.1 - q.1)
            (([(1 : ℚ), 2, 3] : List ℚ).getD ((argsortDesc [(5 : ℚ), 7, 6]).getD i 0) 0,
             ([(4 : ℚ), 5, 6] : List ℚ).getD ((argsortDesc [(5 : ℚ), 7, 6]).getD i 0) 0)
            (([(1 : ℚ), 2, 3] : List ℚ).getD ((argsortDesc [(5 : ℚ), 7, 6]).getD j 0) 0,
             ([(4 : ℚ), 5, 6] : List ℚ).getD ((argsortDesc [(5 : ℚ), 7, 6]).getD j 0) 0)) :=
  ⟨by decide,
    TableDistance_exp_all_spots (fun p q => p.1 - q.1) [(1 : ℚ), 2, 3] [(4 : ℚ), 5, 6]
      [(5 : ℚ), 7, 6] (by decide)⟩

/-- C10: `TableDistance_exp` succeeds exactly when `nb_of_spots > 0` or
`nb_of_spots = -1`; for `nb_of_spots = 0` or any other negative value neither
selection branch executes and the call fails (unbound `sorted_int_index`,
modelled as `none`) — despite the stated convention that negative values mean
"use all reflections". -/
theorem TableDistance_exp_defined_iff (dist : (ℚ × ℚ) → (ℚ × ℚ) → ℚ)
    (theta chi intens : List ℚ) (nb_of_spots : ℤ) :
    (TableDistance_exp dist theta chi intens nb_of_spots).isSome = true ↔
      (0 < nb_of_spots ∨ nb_of_spots = -1) := by
  unfold TableDistance_exp
  split
  case isTrue h => simp [h]
  case isFalse h =>
    split
    case isTrue h2 => simp [h2]
    case isFalse h2 => simp [h, h2]

theorem dot_self_nonneg (a : Vec3) : 0 ≤ dot a a := by
  obtain ⟨a1, a2, a3⟩ := a
  simp only [dot]
  nlinarith [sq_nonneg a1, sq_nonneg a2, sq_nonneg a3]

/-- Any two members of one harmonic group are equal or exactly parallel. -/
theorem group_pairs_parallel {hkl : List Vec3} {g : List ℕ}
    (hg : g ∈ harmonicGroups hkl) {i j : ℕ} (hi : i ∈ g) (hj : j ∈ g) :
    i = j ∨ pRel hkl i j := by
  obtain ⟨u, hu, rfl⟩ := mem_getSets.mp hg
  have hzp := zeroPairs_ne_nil_of_involved hu
  rcases (mem_component_iff hzp).mp hi with rfl | hpi
  · rcases (mem_component_iff hzp).mp hj with rfl | hpj
    · exact Or.inl rfl
    · exact Or.inr hpj
  · rcases (mem_component_iff hzp).mp hj with rfl | hpj
    · exact Or.inr (pRel_symm hpi)
    · rcases pRel_trans (pRel_symm hpi) hpj with rfl | hp
      · exact Or.inl rfl
      · exact Or.inr hp

/-- C4: `FilterHarmonics_2` groups by the transitive closure of the pairwise
zero-rounded-angle relation: whenever angle(a,b) = 0 and angle(b,c) = 0, the
indices a, b and c all land in one harmonic group (a connected component, not
merely a pairwise clique). -/
theorem FilterHarmonics_2_transitive_grouping (hkl : List Vec3) (a b c : ℕ)
    (ha : a < hkl.length) (hb : b < hkl.length) (hc : c < hkl.length)
    (hab : a ≠ b) (hbc : b ≠ c)
    (h1 : sameDir (vecAt hkl a) (vecAt hkl b))
    (h2 : sameDir (vecAt hkl b) (vecAt hkl c)) :
    ∃ g ∈ harmonicGroups hkl, a ∈ g ∧ b ∈ g ∧ c ∈ g := by
  have pab : pRel hkl a b := ⟨ha, hb, hab, h1⟩
  have pbc : pRel hkl b c := ⟨hb, hc, hbc, h2⟩
  have hainv : a ∈ involved (zeroPairs hkl) := mem_involved_zeroPairs.mpr ⟨b, pab⟩
  have hzp := zeroPairs_ne_nil_of_involved hainv
  refine ⟨component (zeroPairs hkl) a, mem_getSets.mpr ⟨a, hainv, rfl⟩,
    group_mem_self hainv, (mem_component_iff hzp).mpr (Or.inr pab), ?_⟩
  rcases pRel_trans pab pbc with rfl | pac
  · exact group_mem_self hainv
  · exact (mem_component_iff hzp).mpr (Or.inr pac)

theorem FilterHarmonics_2_transitive_grouping_witness :
    ((0 : ℕ) < ([((1 : ℤ), (1 : ℤ), (1 : ℤ)), (2, 2, 2), (3, 3, 3)] : List Vec3).length ∧
      (1 : ℕ) < ([((1 : ℤ), (1 : ℤ), (1 : ℤ)), (2, 2, 2), (3, 3, 3)] : List Vec3).length ∧
      (2 : ℕ) < ([((1 : ℤ), (1 : ℤ), (1 : ℤ)), (2, 2, 2), (3, 3, 3)] : List Vec3).length ∧
      (0 : ℕ) ≠ 1 ∧ (1 : ℕ) ≠ 2 ∧
      sameDir (vecAt [((1 : ℤ), (1 : ℤ), (1 : ℤ)), (2, 2, 2), (3, 3, 3)] 0)
        (vecAt [((1 : ℤ), (1 : ℤ), (1 : ℤ)), (2, 2, 2), (3, 3, 3)] 1) ∧
      sameDir (vecAt [((1 : ℤ), (1 : ℤ), (1 : ℤ)), (2, 2, 2), (3, 3, 3)] 1)
        (vecAt [((1 : ℤ), (1 : ℤ), (1 : ℤ)), (2, 2, 2), (3, 3, 3)] 2)) ∧
    (∃ g ∈ harmonicGroups [((1 : ℤ), (1 : ℤ), (1 : ℤ)), (2, 2, 2), (3, 3, 3)],
      0 ∈ g ∧ 1 ∈ g ∧ 2 ∈ g) :=
  ⟨⟨by decide, by decide, by decide, by decide, by decide, by decide, by decide⟩,
    FilterHarmonics_2_transitive_grouping
      [((1 : ℤ), (1 : ℤ), (1 : ℤ)), (2, 2, 2), (3, 3, 3)] 0 1 2
      (by decide) (by decide) (by decide) (by decide) (by decide)
      (by decide) (by decide)⟩

/-- C5 (counterexample to the claim as stated): in Scenario A itself the
vector [2,2,2] at index 1 is antiparallel to [-1,-1,-1] at index 2, yet it is
not retained in the output — so "both antiparallel vectors are retained" fails
on the code. -/
theorem FilterHarmonics_2_antiparallel_counterexample :
    antiparallel (vecAt [((1 : ℤ), (1 : ℤ), (1 : ℤ)), (2, 2, 2), (-1, -1, -1)] 1)
        (vecAt [((1 : ℤ), (1 : ℤ), (1 : ℤ)), (2, 2, 2), (-1, -1, -1)] 2) ∧
      vecAt [((1 : ℤ), (1 : ℤ), (1 : ℤ)), (2, 2, 2), (-1, -1, -1)] 1 ∉
        (FilterHarmonics_2 [((1 : ℤ), (1 : ℤ), (1 : ℤ)), (2, 2, 2), (-1, -1, -1)]).1 := by
  decide

/-- C5 (amended): `FilterHarmonics_2` never places two antiparallel vectors in
the same harmonic group; a vector is removed only if it is positively parallel
to some other input vector (so a member of an antiparallel pair that is
parallel to no third vector is retained); in particular, for input
[1,1,1],[2,2,2],[-1,-1,-1] the output keeps [1,1,1] and [-1,-1,-1] and removes
only [2,2,2] (index 1). -/
theorem FilterHarmonics_2_antiparallel_amended :
    (∀ (hkl : List Vec3) (i j : ℕ), i < hkl.length → j < hkl.length →
      antiparallel (vecAt hkl i) (vecAt hkl j) →
      ¬ ∃ g ∈ harmonicGroups hkl, i ∈ g ∧ j ∈ g) ∧
    (∀ (hkl : List Vec3) (i : ℕ), i < hkl.length →
      (∀ j, j < hkl.length → j ≠ i → ¬ sameDir (vecAt hkl i) (vecAt hkl j)) →
      i ∉ (FilterHarmonics_2 hkl).2 ∧ vecAt hkl i ∈ (FilterHarmonics_2 hkl).1) ∧
    FilterHarmonics_2 [((1 : ℤ), (1 : ℤ), (1 : ℤ)), (2, 2, 2), (-1, -1, -1)] =
      ([(1, 1, 1), (-1, -1, -1)], [1]) := by
  refine ⟨?_, ?_, by decide⟩
  · rintro hkl i j hi hj hanti ⟨g, hg, hig, hjg⟩
    rcases group_pairs_parallel hg hig hjg with rfl | hp
    · have h0 := dot_self_nonneg (vecAt hkl i)
      exact absurd hanti.2 (not_lt.mpr h0)
    · exact sameDir_not_antiparallel hp.2.2.2 hanti
  · intro hkl i hi hiso
    have hnr : i ∉ toremoveList hkl := by
      intro hmem
      obtain ⟨⟨g, hg, hig⟩, -⟩ := mem_toremoveList.mp hmem
      obtain ⟨u, hu, rfl⟩ := mem_getSets.mp hg
      have hzp := zeroPairs_ne_nil_of_involved hu
      rcases (mem_component_iff hzp).mp hig with rfl | hpi
      · obtain ⟨v, hv⟩ := mem_involved_zeroPairs.mp hu
        exact hiso v hv.2.1 (hv.2.2.1).symm hv.2.2.2
      · exact hiso u hpi.1 (pRel_symm hpi).2.2.1.symm (pRel_symm hpi).2.2.2
    constructor
    · rw [FilterHarmonics_2_eq]
      exact hnr
    · rw [FilterHarmonics_2_eq]
      show vecAt hkl i ∈ deleteIdx hkl (toremoveList hkl)
      unfold deleteIdx
      exact List.mem_map_of_mem _ (mem_keptIdx.mpr ⟨hi, hnr⟩)

theorem FilterHarmonics_2_antiparallel_amended_witness :
    ((0 : ℕ) < ([((1 : ℤ), (1 : ℤ), (1 : ℤ)), (-1, -1, -1)] : List Vec3).length ∧
      (1 : ℕ) < ([((1 : ℤ), (1 : ℤ), (1 : ℤ)), (-1, -1, -1)] : List Vec3).length ∧
      antiparallel (vecAt [((1 : ℤ), (1 : ℤ), (1 : ℤ)), (-1, -1, -1)] 0)
        (vecAt [((1 : ℤ), (1 : ℤ), (1 : ℤ)), (-1, -1, -1)] 1)) ∧
    ¬ ∃ g ∈ harmonicGroups [((1 : ℤ), (1 : ℤ), (1 : ℤ)), (-1, -1, -1)],
      0 ∈ g ∧ 1 ∈ g :=
  ⟨⟨by decide, by decide, by decide⟩,
    FilterHarmonics_2_antiparallel_amended.1
      [((1 : ℤ), (1 : ℤ), (1 : ℤ)), (-1, -1, -1)] 0 1
      (by decide) (by decide) (by decide)⟩

theorem deleteIdx_sublist (hkl : List Vec3) (rm : List ℕ) :
    (deleteIdx hkl rm).Sublist hkl := by
  have h := List.Sublist.map (vecAt hkl)
    (List.filter_sublist (p := fun i => decide (i ∉ rm)) (List.range hkl.length))
  rwa [map_vecAt_range] at h

/-- C6: for every harmonic group (each has size > 1), the single kept
representative is the member minimising the sum of absolute values of its
three components, ties broken by lowest original index; every other member of
the group is in the removed-index list, the representative is not, and the
surviving vectors form an order-preserving subsequence of the input. -/
theorem FilterHarmonics_2_representative (hkl : List Vec3) (g : List ℕ)
    (hg : g ∈ harmonicGroups hkl) :
    1 < g.length ∧
    bestRep hkl g ∈ g ∧
    (∀ m ∈ g, abssum (vecAt hkl (bestRep hkl g)) ≤ abssum (vecAt hkl m)) ∧
    (∀ m ∈ g, abssum (vecAt hkl m) = abssum (vecAt hkl (bestRep hkl g)) →
      bestRep hkl g ≤ m) ∧
    (∀ m ∈ g, (m ∈ (FilterHarmonics_2 hkl).2 ↔ m ≠ bestRep hkl g)) ∧
    (FilterHarmonics_2 hkl).1.Sublist hkl := by
  have hsorted : g.Sorted (· ≤ ·) := by
    obtain ⟨u, -, rfl⟩ := mem_getSets.mp hg
    exact component_sorted _ u
  refine ⟨group_one_lt_length hg, bestRep_mem (group_ne_nil hg),
    fun m hm => bestRep_min hm, fun m hm he => bestRep_tieLow hsorted hm he,
    ?_, ?_⟩
  · intro m hm
    rw [FilterHarmonics_2_eq]
    exact mem_toremove_iff_ne_rep hg hm
  · rw [FilterHarmonics_2_eq]
    exact deleteIdx_sublist hkl (toremoveList hkl)

theorem FilterHarmonics_2_representative_witness :
    (([0, 1, 2] : List ℕ) ∈
      harmonicGroups [((1 : ℤ), (1 : ℤ), (1 : ℤ)), (2, 2, 2), (3, 3, 3)]) ∧
    (1 < ([0, 1, 2] : List ℕ).length ∧
      bestRep [((1 : ℤ), (1 : ℤ), (1 : ℤ)), (2, 2, 2), (3, 3, 3)] [0, 1, 2] ∈
        ([0, 1, 2] : List ℕ) ∧
      (∀ m ∈ ([0, 1, 2] : List ℕ),
        abssum (vecAt [((1 : ℤ), (1 : ℤ), (1 : ℤ)), (2, 2, 2), (3, 3, 3)]
          (bestRep [((1 : ℤ), (1 : ℤ), (1 : ℤ)), (2, 2, 2), (3, 3, 3)] [0, 1, 2])) ≤
          abssum (vecAt [((1 : ℤ), (1 : ℤ), (1 : ℤ)), (2, 2, 2), (3, 3, 3)] m)) ∧
      (∀ m ∈ ([0, 1, 2] : List ℕ),
        abssum (vecAt [((1 : ℤ), (1 : ℤ), (1 : ℤ)), (2, 2, 2), (3, 3, 3)] m) =
          abssum (vecAt [((1 : ℤ), (1 : ℤ), (1 : ℤ)), (2, 2, 2), (3, 3, 3)]
            (bestRep [((1 : ℤ), (1 : ℤ), (1 : ℤ)), (2, 2, 2), (3, 3, 3)] [0, 1, 2])) →
        bestRep [((1 : ℤ), (1 : ℤ), (1 : ℤ)), (2, 2, 2), (3, 3, 3)] [0, 1, 2] ≤ m) ∧
      (∀ m ∈ ([0, 1, 2] : List ℕ),
        (m ∈ (FilterHarmonics_2 [((1 : ℤ), (1 : ℤ), (1 : ℤ)), (2, 2, 2), (3, 3, 3)]).2 ↔
          m ≠ bestRep [((1 : ℤ), (1 : ℤ), (1 : ℤ)), (2, 2, 2), (3, 3, 3)] [0, 1, 2])) ∧
      (FilterHarmonics_2 [((1 : ℤ), (1 : ℤ), (1 : ℤ)), (2, 2, 2), (3, 3, 3)]).1.Sublist
        [((1 : ℤ), (1 : ℤ), (1 : ℤ)), (2, 2, 2), (3, 3, 3)]) :=
  ⟨by decide,
    FilterHarmonics_2_representative
      [((1 : ℤ), (1 : ℤ), (1 : ℤ)), (2, 2, 2), (3, 3, 3)] [0, 1, 2] (by decide)⟩

/-- C7: `FilterHarmonics_2` is idempotent: applied to its own output it
returns that output unchanged (and removes nothing). -/
theorem FilterHarmonics_2_idempotent (hkl : List Vec3) :
    FilterHarmonics_2 ((FilterHarmonics_2 hkl).1) = ((FilterHarmonics_2 hkl).1, []) := by
  have hout : (FilterHarmonics_2 hkl).1 = deleteIdx hkl (toremoveList hkl) := by
    rw [FilterHarmonics_2_eq]
  rw [hout]
  have hzp := zeroPairs_deleteIdx_toremove hkl
  by_cases hlen : (deleteIdx hkl (toremoveList hkl)).length = 1
  · unfold FilterHarmonics_2
    rw [if_pos hlen]
  · unfold FilterHarmonics_2
    rw [if_neg hlen, if_pos hzp]

end LaueTools
